import Mathlib

/-!
Shallow embedding of the borscht CF-tree core (src/borscht/src):
`point.rs`, `cfeature/birch.rs`, `cfeature/betula.rs`, `cftree.rs`.
Scalars (`f64` in the source) are modelled as exact rationals; machine
floating-point rounding is outside the model, but the one place where the
source produces a non-finite value from finite inputs (the `0.0/0.0`
division in the Betula feature addition) is modelled explicitly.
-/

/-- Model of `point.rs` `pub type Scalar = f64`: exact rationals. -/
abbrev Scalar : Type := ℚ

/-- Model of `Point<DIMS>`: a list of scalars (the `DIMS`-array of `f64`);
all points of one tree share a length. -/
abbrev Point : Type := List Scalar

/-- Elementwise addition (`impl Add for Point`). -/
def Point.addP (a b : Point) : Point := List.zipWith (fun x y => x + y) a b

/-- Elementwise subtraction (`impl Sub for Point`). -/
def Point.subP (a b : Point) : Point := List.zipWith (fun x y => x - y) a b

/-- Elementwise multiplication (`impl Mul for Point`, point * point). -/
def Point.mulP (a b : Point) : Point := List.zipWith (fun x y => x * y) a b

/-- Scalar * point broadcast (`impl Mul<Point> for Scalar`). -/
def Point.smul (c : Scalar) (a : Point) : Point := a.map (fun x => c * x)

/-- Model of `Point::norm2`: `self.0.iter().fold(0.0, |acc, x| acc + x * x)`. -/
def Point.norm2 (a : Point) : Scalar := a.foldl (fun acc x => acc + x * x) 0

/-- Model of `Point::zero()` for dimension `D`: all-zeros. -/
def Point.zeroP (D : ℕ) : Point := List.replicate D 0

/-- Model of `cfeature/birch.rs` `CFeature`: linear sum `ls`, sum of
squares `ss`, and size `n` (`usize` in the source). -/
structure BirchCF : Type where
  ls : Point
  ss : Scalar
  n : ℕ
deriving DecidableEq, Repr

/-- Model of birch `Zero::zero()` at dimension `D`. -/
def BirchCF.zeroF (D : ℕ) : BirchCF := ⟨Point.zeroP D, 0, 0⟩

/-- Model of birch `Add<&Self>`: fieldwise addition. -/
def BirchCF.addCF (a b : BirchCF) : BirchCF :=
  ⟨Point.addP a.ls b.ls, a.ss + b.ss, a.n + b.n⟩

/-- Model of birch `Add<&Point>`: `ls + p`, `ss + p.norm2()`, `n + 1`. -/
def BirchCF.addP (f : BirchCF) (p : Point) : BirchCF :=
  ⟨Point.addP f.ls p, f.ss + Point.norm2 p, f.n + 1⟩

/-- Model of birch `From<Point>`: `Self::zero() + orig`. -/
def BirchCF.fromP (D : ℕ) (p : Point) : BirchCF := (BirchCF.zeroF D).addP p

/-- Model of birch `Dist<Point>::dist2`: `(&self.ls - r).norm2()` -- the
squared distance is taken on the raw `ls` vectors, not on centers. -/
def BirchCF.dist2P (f : BirchCF) (p : Point) : Scalar :=
  Point.norm2 (Point.subP f.ls p)

/-- Model of birch `Dist<Self>::dist2`: `(&self.ls - &r.ls).norm2()`. -/
def BirchCF.dist2F (a b : BirchCF) : Scalar :=
  Point.norm2 (Point.subP a.ls b.ls)

/-- Model of birch `CFeature::diam2`: numerator `2*n*ss - 2*ls.norm2()`,
divided by `1` when `n < 2` and by `(n*(n-1)) as Scalar` otherwise. -/
def BirchCF.diam2 (f : BirchCF) : Scalar :=
  (2 * (f.n : Scalar) * f.ss - 2 * Point.norm2 f.ls) /
    (if f.n < 2 then 1 else ((f.n * (f.n - 1) : ℕ) : Scalar))

/-- Model of birch `CFeature::size`: `self.n as Scalar`. -/
def BirchCF.sizeF (f : BirchCF) : Scalar := (f.n : Scalar)

/-- Model of `cfeature/betula.rs` `CFeature`: weight `n`, weighted mean
`mu`, weighted sum of squared deviations `s`. -/
structure BetulaCF : Type where
  n : Scalar
  mu : Point
  s : Point
deriving DecidableEq, Repr

/-- Model of betula `Zero::zero()` at dimension `D`. -/
def BetulaCF.zeroF (D : ℕ) : BetulaCF := ⟨0, Point.zeroP D, Point.zeroP D⟩

/-- Model of betula `Add<&Self>`:
`n = self.n + rhs.n`, `mu = self.mu + rhs.n / n * (rhs.mu - self.mu)`,
`s = self.s + rhs.s + rhs.n * (self.mu - rhs.mu) * (mu - rhs.mu)`.
The division `rhs.n / n` is IEEE-754 `f64` division: when `n = 0` (both
summands empty) the source evaluates `0.0 / 0.0 = NaN`, which poisons the
`mu` and `s` fields of the result; that non-finite outcome is modelled as
`none`. When `n` is nonzero the arithmetic is exact and the result is
`some` of the fieldwise formula. -/
def BetulaCF.addCF (a b : BetulaCF) : Option BetulaCF :=
  let n : Scalar := a.n + b.n
  if n = 0 then none
  else
    let mu : Point := Point.addP a.mu (Point.smul (b.n / n) (Point.subP b.mu a.mu))
    some ⟨n, mu,
      Point.addP (Point.addP a.s b.s)
        (Point.mulP (Point.smul b.n (Point.subP a.mu b.mu)) (Point.subP mu b.mu))⟩

/-- Model of betula `Add<&Point>`: add the singleton feature `(1, p, 0)`. -/
def BetulaCF.addP (f : BetulaCF) (p : Point) : Option BetulaCF :=
  f.addCF ⟨1, p, Point.zeroP p.length⟩

/-- Model of betula `CFeature::size`. -/
def BetulaCF.sizeF (f : BetulaCF) : Scalar := f.n

/-- Capability record mirroring the `CFeature` trait of `cfeature.rs`; the
tree code (`cftree.rs`) is generic over it. `dist2P` is `Dist<Point>`,
`dist2F` is `Dist<Self>`. -/
structure CFOps (CF : Type) where
  zero : CF
  addCF : CF → CF → CF
  addP : CF → Point → CF
  fromP : Point → CF
  diam2 : CF → Scalar
  dist2P : CF → Point → Scalar
  dist2F : CF → CF → Scalar
  sizeF : CF → Scalar

/-- The `CFeature` trait instance of `cfeature/birch.rs` at dimension `D`. -/
def birchOps (D : ℕ) : CFOps BirchCF where
  zero := BirchCF.zeroF D
  addCF := BirchCF.addCF
  addP := BirchCF.addP
  fromP := BirchCF.fromP D
  diam2 := BirchCF.diam2
  dist2P := BirchCF.dist2P
  dist2F := BirchCF.dist2F
  sizeF := BirchCF.sizeF

/-- Model of `cftree.rs` `Capacity`. -/
structure Capacity where
  min : ℕ
  max : ℕ
deriving DecidableEq, Repr

/-- Model of `cftree.rs` `BasicConfig` (the `TreeConfig` trait implementor
used by the tree: `node_capacity` returns `capacity`, `leaf_capacity`
defaults to it, `threshold` returns `threshold`). -/
structure TreeConfig where
  capacity : Capacity
  threshold : Scalar
deriving DecidableEq, Repr

/-- A configuration accepted per the spec: `0 < min <= max` and `2 <= max`. -/
def TreeConfig.accepted (cfg : TreeConfig) : Prop :=
  0 < cfg.capacity.min ∧ cfg.capacity.min ≤ cfg.capacity.max ∧ 2 ≤ cfg.capacity.max

instance (cfg : TreeConfig) : Decidable cfg.accepted := by
  unfold TreeConfig.accepted
  infer_instance

/-- Model of `cftree.rs` `Node<CF, DIMS>`: an ordered list of entries,
each a feature paired with an optional child node (`NodeEntry`:
`.1` is the `feature` field, `.2` the `child` field). -/
inductive Node (CF : Type) : Type where
  | mk (entries : List (CF × Option (Node CF))) : Node CF

/-- Entry of a node: `NodeEntry { feature, child }` as a pair. -/
abbrev NodeEntry (CF : Type) : Type := CF × Option (Node CF)

/-- Accessor for the `entries` field of a `Node`. -/
def Node.entriesOf {CF : Type} : Node CF → List (NodeEntry CF)
  | .mk es => es

/-- Model of `Node::height`:
`1 + entries.iter().map(|e| e.height()).max().unwrap_or(0)` where an
entry's height is its child's height, or `0` when childless. -/
def Node.height {CF : Type} : Node CF → ℕ
  | .mk entries =>
    1 + (entries.attach.map (fun ee =>
      match h : ee.1.2 with
      | none => 0
      | some c => Node.height c)).foldl max 0
termination_by n => sizeOf n
decreasing_by
  have h1 := List.sizeOf_lt_of_mem ee.2
  have h3 : sizeOf ee.1.2 ≤ sizeOf ee.1 := by
    cases hx : ee.1 with
    | mk a b => simp [hx]
  rw [h] at h3
  simp at h3
  simp
  omega

/-- Total size of the childless (leaf) entries of a tree: the sum of
`feature.size()` over every entry whose `child` is `None`, descending
through entries that do own a child. Used to state count conservation
(spec property P3); this measure is not itself source code. -/
def leafSum {CF : Type} (ops : CFOps CF) : Node CF → Scalar
  | .mk [] => 0
  | .mk ((f, none) :: rest) => ops.sizeF f + leafSum ops (.mk rest)
  | .mk ((_, some c) :: rest) => leafSum ops c + leafSum ops (.mk rest)
termination_by n => sizeOf n
decreasing_by
  all_goals simp
  all_goals omega

/-- Contribution of one entry to `leafSum`: its feature size when it is
childless, the leaf total of its child otherwise. -/
def entryLS {CF : Type} (ops : CFOps CF) (e : NodeEntry CF) : Scalar :=
  match e.2 with
  | none => ops.sizeF e.1
  | some c => leafSum ops c

/-- Model of the closest-entry fold at the start of `Node::insert`:
`entries.iter_mut().fold((None, Scalar::max_value()), |(_, closest_dist2), entry| { let d2 = entry.feature.dist2(&p); match d2 < closest_dist2 { true => (Some(entry), d2), false => (None, closest_dist2) } })`.
The accumulator's entry slot is rebuilt at every step: a non-improving
step stores `None`, discarding any previously tracked entry. The mutable
reference is modelled by the entry's index. `Scalar::max_value()`
(`f64::MAX`, exceeded by no finite squared distance in range) is modelled
as the `none` initial distance, against which every distance compares
less. -/
def closestIdx {CF : Type} (ops : CFOps CF) (p : Point)
    (entries : List (NodeEntry CF)) : Option ℕ × Option Scalar :=
  entries.enum.foldl
    (fun acc ie =>
      match acc.2 with
      | none => (some ie.1, some (ops.dist2P ie.2.1 p))
      | some dcur =>
        let d2 := ops.dist2P ie.2.1 p
        if d2 < dcur then (some ie.1, some d2) else (none, some dcur))
    (none, none)

/-- Model of `cftree.rs` `EntryInsertion`. -/
inductive EntryInsertion : Type where
  | success
  | failure (p : Point)
deriving DecidableEq, Repr

/-- Model of `NodeEntry::insert`: try to absorb `p`; on success the
feature becomes `feature + p` (child untouched), otherwise the entry is
returned unchanged together with `Failure(p)`. -/
def NodeEntry.insert {CF : Type} (ops : CFOps CF) (cfg : TreeConfig)
    (e : NodeEntry CF) (p : Point) : EntryInsertion × NodeEntry CF :=
  let fwp := ops.addP e.1 p
  if ops.diam2 fwp ≤ cfg.threshold then (.success, (fwp, e.2))
  else (.failure p, e)

/-- Model of `cftree.rs` `NodeInsertion`. -/
inductive NodeInsertion (α : Type) : Type where
  | single (a : α)
  | split (l r : α)

/-- Model of the `Farthest` tracker struct of `cftree.rs`. The `rest`
field is a `HashSet<usize>`, modelled as a `Finset` since the code only
inserts into it and tests membership. -/
structure Farthest where
  farthest_dist2 : Scalar
  lidx : ℕ
  ridx : ℕ
  rest : Finset ℕ
deriving DecidableEq

/-- Indexing `self.entries[idx]`; in the source every index used is in
range, the default entry only makes the model total. -/
def nthE {CF : Type} (ops : CFOps CF) (entries : List (NodeEntry CF)) (k : ℕ) :
    NodeEntry CF := entries.getD k (ops.zero, none)

/-- Index pairs produced by `tuple_combinations` on the enumerated
entries of a node of length `n`: all `(i, j)` with `i < j < n` in
lexicographic order. -/
def pairIdx (n : ℕ) : List (ℕ × ℕ) :=
  (List.range n).flatMap (fun i => ((List.range n).drop (i + 1)).map (fun j => (i, j)))

/-- Squared distance between the features of the entries at an index
pair, as computed inside the `Node::farthest` fold. -/
def pairDist {CF : Type} (ops : CFOps CF) (entries : List (NodeEntry CF))
    (ij : ℕ × ℕ) : Scalar :=
  ops.dist2F (nthE ops entries ij.1).1 (nthE ops entries ij.2).1

/-- The left-bag test of `Node::check_split`: entry `k` is strictly
closer to the feature at `l` than to the feature at `r`. -/
abbrev selPred {CF : Type} (ops : CFOps CF) (entries : List (NodeEntry CF))
    (l r k : ℕ) : Prop :=
  ops.dist2F (nthE ops entries l).1 (nthE ops entries k).1 <
    ops.dist2F (nthE ops entries r).1 (nthE ops entries k).1

/-- One step of the `Node::farthest` fold over entry pairs: a strictly
greater distance replaces the tracked pair (dumping the old pair into
`rest`); otherwise the scanned pair's indices are added to `rest`. -/
def farStep {CF : Type} (ops : CFOps CF) (entries : List (NodeEntry CF))
    (t : Option Farthest) (ij : ℕ × ℕ) : Option Farthest :=
  let d2 := pairDist ops entries ij
  match t with
  | some t0 =>
    if d2 > t0.farthest_dist2 then
      some ⟨d2, ij.1, ij.2, insert t0.lidx (insert t0.ridx t0.rest)⟩
    else
      some ⟨t0.farthest_dist2, t0.lidx, t0.ridx, insert ij.1 (insert ij.2 t0.rest)⟩
  | none => some ⟨d2, ij.1, ij.2, ∅⟩

/-- Model of `Node::farthest`: fold `farStep` over all entry pairs in
lexicographic order, starting from `None`. The source `.expect`s the
result (panicking on a node with fewer than two entries); the `none`
result models that panic. -/
def Node.farthest {CF : Type} (ops : CFOps CF) (nd : Node CF) : Option Farthest :=
  (pairIdx nd.entriesOf.length).foldl (farStep ops nd.entriesOf) none

/-- Model of the `partition_map` in `Node::check_split`: entries whose
index lies in `lset` go left, the others right, both sides keeping the
original entry order. -/
def partitionByIdx {CF : Type} (lset : Finset ℕ) (entries : List (NodeEntry CF)) :
    List (NodeEntry CF) × List (NodeEntry CF) :=
  ((entries.enum.filter (fun ke => ke.1 ∈ lset)).map (fun ke => ke.2),
   (entries.enum.filter (fun ke => ke.1 ∉ lset)).map (fun ke => ke.2))

/-- Model of `Node::check_split`: when `entries.len() >= max`, run the
farthest-pair search, build `lset` as the subset of `rest` strictly
closer to the `lidx` feature than to the `ridx` feature, and split by
`lset` membership; below capacity the node is returned as `Single`. -/
def Node.check_split {CF : Type} (ops : CFOps CF) (cfg : TreeConfig)
    (nd : Node CF) : Option (NodeInsertion (Node CF)) :=
  if cfg.capacity.max ≤ nd.entriesOf.length then
    match nd.farthest ops with
    | none => none
    | some far =>
      let lset := far.rest.filter (fun k => selPred ops nd.entriesOf far.lidx far.ridx k)
      let parts := partitionByIdx lset nd.entriesOf
      some (.split (.mk parts.1) (.mk parts.2))
  else some (.single nd)

/-- Model of `Node::compute_feature`: fold the entry features from
`CF::zero()` with feature addition. -/
def Node.compute_feature {CF : Type} (ops : CFOps CF) (nd : Node CF) : CF :=
  (nd.entriesOf.map (fun e => e.1)).foldl ops.addCF ops.zero

/-- Model of `Node::insert`. The selected index (if any) comes from the
closest-entry fold; a selected entry with a child descends recursively
(replacing the child and recomputing the entry feature, plus appending
the right node on a child split, then checking for a split); a selected
childless entry tries absorption, appending a fresh entry and checking
for a split on failure; when the fold yields `None` the point is appended
as a fresh entry with no split check. -/
def Node.insert {CF : Type} (ops : CFOps CF) (cfg : TreeConfig) :
    Node CF → Point → Option (NodeInsertion (Node CF))
  | .mk entries, p =>
    match (closestIdx ops p entries).1 with
    | some i =>
      match h : (nthE ops entries i).2 with
      | some child =>
        match Node.insert ops cfg child p with
        | none => none
        | some (.split left right) =>
          Node.check_split ops cfg (.mk
            ((entries.set i (Node.compute_feature ops left, some left)) ++
              [(Node.compute_feature ops right, some right)]))
        | some (.single nd2) =>
          some (.single (.mk
            (entries.set i (Node.compute_feature ops nd2, some nd2))))
      | none =>
        match NodeEntry.insert ops cfg (nthE ops entries i) p with
        | (.success, e2) => some (.single (.mk (entries.set i e2)))
        | (.failure p2, _) =>
          Node.check_split ops cfg (.mk (entries ++ [(ops.fromP p2, none)]))
    | none => some (.single (.mk (entries ++ [(ops.fromP p, none)])))
termination_by nd _ => sizeOf nd
decreasing_by
  have h1 : (nthE ops entries i) ∈ entries := by
    rcases Nat.lt_or_ge i entries.length with hi | hi
    · rw [nthE, List.getD_eq_getElem _ _ hi]
      exact List.getElem_mem hi
    · exfalso
      have hd : nthE ops entries i = (ops.zero, none) := List.getD_eq_default _ _ hi
      rw [hd] at h
      simp at h
  have h2 := List.sizeOf_lt_of_mem h1
  have h3 : sizeOf (nthE ops entries i).2 ≤ sizeOf (nthE ops entries i) := by
    cases hx : nthE ops entries i with
    | mk a b => simp [hx]
  rw [h] at h3
  simp at h3
  simp
  omega

/-- Loop body of `Node::from_iter`: insert each point in turn, replacing
the root on `Single` and promoting a fresh two-entry root on `Split`. -/
def Node.from_iter_aux {CF : Type} (ops : CFOps CF) (cfg : TreeConfig) :
    Node CF → List Point → Option (Node CF)
  | root, [] => some root
  | root, p :: rest =>
    match Node.insert ops cfg root p with
    | none => none
    | some (.single nd) => Node.from_iter_aux ops cfg nd rest
    | some (.split left right) =>
      Node.from_iter_aux ops cfg
        (.mk [(Node.compute_feature ops left, some left),
              (Node.compute_feature ops right, some right)]) rest

/-- Model of `Node::from_iter`: start from the empty root node and fold
the stream through `Node::insert` with root promotion. -/
def Node.from_iter {CF : Type} (ops : CFOps CF) (cfg : TreeConfig)
    (pts : List Point) : Option (Node CF) :=
  Node.from_iter_aux ops cfg (.mk []) pts

/-- Variant of the `partition_map` of `Node::check_split` with the left
index set given as a list (the drain order of the `rest` hash set);
only list membership is consulted. -/
def partitionByIdxL {CF : Type} (lset : List ℕ) (entries : List (NodeEntry CF)) :
    List (NodeEntry CF) × List (NodeEntry CF) :=
  ((entries.enum.filter (fun ke => ke.1 ∈ lset)).map (fun ke => ke.2),
   (entries.enum.filter (fun ke => ke.1 ∉ lset)).map (fun ke => ke.2))

/-- Variant of `Node::check_split` making the `HashSet` iteration order
explicit: `oracle nd` is the order in which `rest.drain()` yields the
indices of the node being split; `lset` is then the filtered list (the
collected left-hand `HashSet`), consulted only through membership. -/
def Node.check_splitO {CF : Type} (ops : CFOps CF) (cfg : TreeConfig)
    (oracle : Node CF → List ℕ) (nd : Node CF) : Option (NodeInsertion (Node CF)) :=
  if cfg.capacity.max ≤ nd.entriesOf.length then
    match nd.farthest ops with
    | none => none
    | some far =>
      let lsetL := (oracle nd).filter (fun k => selPred ops nd.entriesOf far.lidx far.ridx k)
      let parts := partitionByIdxL lsetL nd.entriesOf
      some (.split (.mk parts.1) (.mk parts.2))
  else some (.single nd)

/-- Variant of `Node::insert` threading the drain-order oracle to every
split check. -/
def Node.insertO {CF : Type} (ops : CFOps CF) (cfg : TreeConfig)
    (oracle : Node CF → List ℕ) :
    Node CF → Point → Option (NodeInsertion (Node CF))
  | .mk entries, p =>
    match (closestIdx ops p entries).1 with
    | some i =>
      match h : (nthE ops entries i).2 with
      | some child =>
        match Node.insertO ops cfg oracle child p with
        | none => none
        | some (.split left right) =>
          Node.check_splitO ops cfg oracle (.mk
            ((entries.set i (Node.compute_feature ops left, some left)) ++
              [(Node.compute_feature ops right, some right)]))
        | some (.single nd2) =>
          some (.single (.mk
            (entries.set i (Node.compute_feature ops nd2, some nd2))))
      | none =>
        match NodeEntry.insert ops cfg (nthE ops entries i) p with
        | (.success, e2) => some (.single (.mk (entries.set i e2)))
        | (.failure p2, _) =>
          Node.check_splitO ops cfg oracle (.mk (entries ++ [(ops.fromP p2, none)]))
    | none => some (.single (.mk (entries ++ [(ops.fromP p, none)])))
termination_by nd _ => sizeOf nd
decreasing_by
  have h1 : (nthE ops entries i) ∈ entries := by
    rcases Nat.lt_or_ge i entries.length with hi | hi
    · rw [nthE, List.getD_eq_getElem _ _ hi]
      exact List.getElem_mem hi
    · exfalso
      have hd : nthE ops entries i = (ops.zero, none) := List.getD_eq_default _ _ hi
      rw [hd] at h
      simp at h
  have h2 := List.sizeOf_lt_of_mem h1
  have h3 : sizeOf (nthE ops entries i).2 ≤ sizeOf (nthE ops entries i) := by
    cases hx : nthE ops entries i with
    | mk a b => simp [hx]
  rw [h] at h3
  simp at h3
  simp
  omega

/-- Variant of the `Node::from_iter` loop threading the drain-order
oracle. -/
def Node.from_iter_auxO {CF : Type} (ops : CFOps CF) (cfg : TreeConfig)
    (oracle : Node CF → List ℕ) :
    Node CF → List Point → Option (Node CF)
  | root, [] => some root
  | root, p :: rest =>
    match Node.insertO ops cfg oracle root p with
    | none => none
    | some (.single nd) => Node.from_iter_auxO ops cfg oracle nd rest
    | some (.split left right) =>
      Node.from_iter_auxO ops cfg oracle
        (.mk [(Node.compute_feature ops left, some left),
              (Node.compute_feature ops right, some right)]) rest

/-- Variant of `Node::from_iter` threading the drain-order oracle. -/
def Node.from_iterO {CF : Type} (ops : CFOps CF) (cfg : TreeConfig)
    (oracle : Node CF → List ℕ) (pts : List Point) : Option (Node CF) :=
  Node.from_iter_auxO ops cfg oracle (.mk []) pts

/-- An oracle is a valid drain order when, for every node on which the
farthest-pair search succeeds, it enumerates exactly the members of the
resulting `rest` set. -/
def OracleValid {CF : Type} (ops : CFOps CF) (oracle : Node CF → List ℕ) : Prop :=
  ∀ nd far, Node.farthest ops nd = some far →
    ∀ k, k ∈ oracle nd ↔ k ∈ far.rest

/-- Drain-order oracle listing `rest` in increasing order. -/
def sortOracle {CF : Type} (ops : CFOps CF) : Node CF → List ℕ := fun nd =>
  match Node.farthest ops nd with
  | none => []
  | some far => far.rest.sort (fun a b => a ≤ b)

/-- Drain-order oracle listing `rest` in decreasing order. -/
def revOracle {CF : Type} (ops : CFOps CF) : Node CF → List ℕ := fun nd =>
  (sortOracle ops nd).reverse

/-- The spec's example configuration `{min: 1, max: 3, threshold: 0.5}`. -/
def cfgB : TreeConfig := ⟨⟨1, 3⟩, 1/2⟩

/-- A roomy configuration (`max` 10) so no split interferes. -/
def cfgW : TreeConfig := ⟨⟨1, 10⟩, 1/2⟩

/-- A configuration with `max` 2, making two-entry nodes split. -/
def cfg2 : TreeConfig := ⟨⟨1, 2⟩, 1/2⟩

/-- The spec's four near points, in insertion order. -/
def pts4 : List Point := [[1,2,3], [2,2,3], [1,3,3], [1,2,4]]

/-- Root after inserting the first of the four points. -/
def nB1 : Node BirchCF := .mk [(⟨[1,2,3], 14, 1⟩, none)]

/-- Root after inserting two of the four points. -/
def nB2 : Node BirchCF := .mk [(⟨[1,2,3], 14, 1⟩, none), (⟨[2,2,3], 17, 1⟩, none)]

/-- Root after inserting three of the four points. -/
def nB3 : Node BirchCF := .mk
  [(⟨[1,2,3], 14, 1⟩, none), (⟨[2,2,3], 17, 1⟩, none), (⟨[1,3,3], 19, 1⟩, none)]

/-- Root produced by the code for the spec's four-near-points scenario:
four singleton leaf entries on a single level. -/
def tree4 : Node BirchCF := .mk
  [(⟨[1,2,3], 14, 1⟩, none), (⟨[2,2,3], 17, 1⟩, none),
   (⟨[1,3,3], 19, 1⟩, none), (⟨[1,2,4], 21, 1⟩, none)]

/-- A two-entry node whose first entry is strictly closest to the origin. -/
def nodeC1 : Node BirchCF := .mk [(⟨[0,0,0], 0, 1⟩, none), (⟨[10,0,0], 100, 1⟩, none)]

/-- The node the code actually produces when inserting the origin into
`nodeC1`: a third fresh entry is appended. -/
def nodeC1out : Node BirchCF := .mk
  [(⟨[0,0,0], 0, 1⟩, none), (⟨[10,0,0], 100, 1⟩, none), (⟨[0,0,0], 0, 1⟩, none)]

/-- First entry of a one-dimensional two-entry node (feature at 0). -/
def eA : NodeEntry BirchCF := (⟨[0], 0, 1⟩, none)

/-- Second entry of a one-dimensional two-entry node (feature at 10). -/
def eB : NodeEntry BirchCF := (⟨[10], 100, 1⟩, none)

/-- Leaf total of an insertion outcome: the leaf total of the single
node, or the sum over both split halves. -/
def insLS {CF : Type} (ops : CFOps CF) : NodeInsertion (Node CF) → Scalar
  | .single nd => leafSum ops nd
  | .split l r => leafSum ops l + leafSum ops r

/-- All indices mentioned by a list of index pairs. -/
def idxSet (ps : List (ℕ × ℕ)) : Finset ℕ :=
  ps.foldr (fun q s => insert q.1 (insert q.2 s)) ∅

/-- Invariant of the `Node::farthest` fold after scanning the pair list
`seen`: the tracked pair was scanned; `rest` plus the tracked pair covers
exactly the scanned indices; a tracked index that was also scanned in any
other pair already sits in `rest`; and the tracked pair is the first
scanned pair attaining the running maximum (all earlier pairs strictly
smaller, all later ones no larger). -/
def FarInv {CF : Type} (ops : CFOps CF) (entries : List (NodeEntry CF))
    (seen : List (ℕ × ℕ)) (t : Farthest) : Prop :=
  (t.lidx, t.ridx) ∈ seen ∧
  t.rest ∪ {t.lidx, t.ridx} = idxSet seen ∧
  ((∃ q ∈ seen, q ≠ (t.lidx, t.ridx) ∧ (t.lidx = q.1 ∨ t.lidx = q.2)) → t.lidx ∈ t.rest) ∧
  ((∃ q ∈ seen, q ≠ (t.lidx, t.ridx) ∧ (t.ridx = q.1 ∨ t.ridx = q.2)) → t.ridx ∈ t.rest) ∧
  (∃ pre post, seen = pre ++ (t.lidx, t.ridx) :: post ∧
    (∀ q ∈ pre, pairDist ops entries q < t.farthest_dist2) ∧
    pairDist ops entries (t.lidx, t.ridx) = t.farthest_dist2 ∧
    (∀ q ∈ post, pairDist ops entries q ≤ t.farthest_dist2))

/-- Third entry of a one-dimensional three-entry node (feature at 4). -/
def eC : NodeEntry BirchCF := (⟨[4], 16, 1⟩, none)

/-! ### Theorems -/

/-- Elementwise lemma: adding the zero point on the right is the identity. -/
theorem Point.addP_zero_right (a : Point) (D : ℕ) (h : a.length = D) :
    Point.addP a (Point.zeroP D) = a := by
  subst h
  induction a with
  | nil => rfl
  | cons x xs ih => simp [Point.addP, Point.zeroP, List.replicate_succ] at ih ⊢; exact ih

/-- Elementwise lemma: adding the zero point on the left is the identity. -/
theorem Point.addP_zero_left (a : Point) (D : ℕ) (h : a.length = D) :
    Point.addP (Point.zeroP D) a = a := by
  subst h
  induction a with
  | nil => rfl
  | cons x xs ih => simp [Point.addP, Point.zeroP, List.replicate_succ] at ih ⊢; exact ih

/-- Elementwise lemma: subtracting the zero point is the identity. -/
theorem Point.subP_zero_right (a : Point) (D : ℕ) (h : a.length = D) :
    Point.subP a (Point.zeroP D) = a := by
  subst h
  induction a with
  | nil => rfl
  | cons x xs ih => simp [Point.subP, Point.zeroP, List.replicate_succ] at ih ⊢; exact ih

/-- Elementwise lemma: subtracting from the zero point negates. -/
theorem Point.subP_zero_left (a : Point) (D : ℕ) (h : a.length = D) :
    Point.subP (Point.zeroP D) a = a.map (fun x => -x) := by
  subst h
  induction a with
  | nil => rfl
  | cons x xs ih =>
    simp [Point.subP, Point.zeroP, List.replicate_succ] at ih ⊢
    exact ih

/-- Elementwise lemma: a point minus itself is all zeros. -/
theorem Point.subP_self (a : Point) :
    Point.subP a a = Point.zeroP a.length := by
  induction a with
  | nil => rfl
  | cons x xs ih => simp [Point.subP, Point.zeroP, List.replicate_succ] at ih ⊢

/-- Scaling by zero yields the all-zeros point. -/
theorem Point.smul_zero_left (a : Point) :
    Point.smul 0 a = Point.zeroP a.length := by
  induction a with
  | nil => rfl
  | cons x xs ih => simp [Point.smul, Point.zeroP, List.replicate_succ] at ih ⊢

/-- Scaling by one is the identity. -/
theorem Point.smul_one_left (a : Point) : Point.smul 1 a = a := by
  induction a with
  | nil => rfl
  | cons x xs ih => simp [Point.smul] at ih ⊢

/-- Elementwise product with the all-zeros point on the right. -/
theorem Point.mulP_zero_right (a : Point) (D : ℕ) (h : a.length = D) :
    Point.mulP a (Point.zeroP D) = Point.zeroP D := by
  subst h
  induction a with
  | nil => rfl
  | cons x xs ih => simp [Point.mulP, Point.zeroP, List.replicate_succ] at ih ⊢; exact ih

/-- Elementwise product with the all-zeros point on the left. -/
theorem Point.mulP_zero_left (a : Point) (D : ℕ) (h : a.length = D) :
    Point.mulP (Point.zeroP D) a = Point.zeroP D := by
  subst h
  induction a with
  | nil => rfl
  | cons x xs ih => simp [Point.mulP, Point.zeroP, List.replicate_succ] at ih ⊢; exact ih

/-- Folding the norm2 accumulator over the all-zeros point from any start. -/
theorem Point.norm2_foldl_zeroP (D : ℕ) (c : Scalar) :
    List.foldl (fun acc x => acc + x * x) c (Point.zeroP D) = c := by
  induction D generalizing c with
  | zero => rfl
  | succ k ih => simp [Point.zeroP, List.replicate_succ] at ih ⊢; simpa using ih c

/-- The all-zeros point has norm2 zero. -/
theorem Point.norm2_zeroP (D : ℕ) : Point.norm2 (Point.zeroP D) = 0 :=
  Point.norm2_foldl_zeroP D 0

/-- Size bound used for recursion into a child node: a child stored in
some entry of `entries` is smaller than the node owning `entries`. -/
theorem nthE_child_sizeOf {CF : Type} (ops : CFOps CF)
    (entries : List (NodeEntry CF)) (i : ℕ) (child : Node CF)
    (h : (nthE ops entries i).2 = some child) :
    sizeOf child < 1 + sizeOf entries := by
  have h1 : (nthE ops entries i) ∈ entries := by
    rcases Nat.lt_or_ge i entries.length with hi | hi
    · rw [nthE, List.getD_eq_getElem _ _ hi]
      exact List.getElem_mem hi
    · exfalso
      have hd : nthE ops entries i = (ops.zero, none) := List.getD_eq_default _ _ hi
      rw [hd] at h
      simp at h
  have h2 := List.sizeOf_lt_of_mem h1
  have h3 : sizeOf (nthE ops entries i).2 ≤ sizeOf (nthE ops entries i) := by
    cases hx : nthE ops entries i with
    | mk a b => simp [hx]
  rw [h] at h3
  simp at h3
  omega

/-- Partitioning by a list left-set and by a finite left-set agree when
the two sets have the same members. -/
theorem partitionByIdx_congr {CF : Type} (lsetL : List ℕ) (lsetF : Finset ℕ)
    (hmem : ∀ k, k ∈ lsetL ↔ k ∈ lsetF) (entries : List (NodeEntry CF)) :
    partitionByIdxL lsetL entries = partitionByIdx lsetF entries := by
  unfold partitionByIdxL partitionByIdx
  have h1 : (entries.enum.filter (fun ke => ke.1 ∈ lsetL)) =
      (entries.enum.filter (fun ke => ke.1 ∈ lsetF)) := by
    refine List.filter_congr ?_
    intro ke _
    simp only [decide_eq_decide]
    exact hmem ke.1
  have h2 : (entries.enum.filter (fun ke => ke.1 ∉ lsetL)) =
      (entries.enum.filter (fun ke => ke.1 ∉ lsetF)) := by
    refine List.filter_congr ?_
    intro ke _
    simp only [decide_eq_decide]
    exact not_congr (hmem ke.1)
  rw [h1, h2]

/-- With a valid drain order, the order-explicit split check agrees with
the set-based one. -/
theorem check_splitO_eq {CF : Type} (ops : CFOps CF) (cfg : TreeConfig)
    (oracle : Node CF → List ℕ) (hval : OracleValid ops oracle) (nd : Node CF) :
    Node.check_splitO ops cfg oracle nd = Node.check_split ops cfg nd := by
  unfold Node.check_splitO Node.check_split
  by_cases hc : cfg.capacity.max ≤ nd.entriesOf.length
  · simp only [if_pos hc]
    cases hf : nd.farthest ops with
    | none => rfl
    | some far =>
      dsimp only
      have hmem := hval nd far hf
      have hparts := partitionByIdx_congr
        ((oracle nd).filter (fun k => selPred ops nd.entriesOf far.lidx far.ridx k))
        (far.rest.filter (fun k => selPred ops nd.entriesOf far.lidx far.ridx k))
        (by
          intro k
          rw [List.mem_filter, Finset.mem_filter]
          simp only [decide_eq_true_eq]
          rw [hmem k])
        nd.entriesOf
      rw [hparts]
  · simp only [if_neg hc]

/-- With a valid drain order, the order-explicit insertion agrees with
the set-based one. -/
theorem insertO_eq {CF : Type} (ops : CFOps CF) (cfg : TreeConfig)
    (oracle : Node CF → List ℕ) (hval : OracleValid ops oracle)
    (nd : Node CF) (p : Point) :
    Node.insertO ops cfg oracle nd p = Node.insert ops cfg nd p := by
  induction' hs : sizeOf nd using Nat.strongRecOn with N ih generalizing nd p
  cases nd with
  | mk entries =>
    rw [Node.insertO, Node.insert]
    cases hcl : (closestIdx ops p entries).1 with
    | none => rfl
    | some i =>
      dsimp only
      cases hch : (nthE ops entries i).2 with
      | none =>
        dsimp only
        cases hei : NodeEntry.insert ops cfg (nthE ops entries i) p with
        | mk res e2 =>
          cases res with
          | success => rfl
          | failure p2 =>
            dsimp only
            exact check_splitO_eq ops cfg oracle hval _
      | some child =>
        dsimp only
        have hlt : sizeOf child < N := by
          have := nthE_child_sizeOf ops entries i child hch
          subst hs
          simp
          omega
        have hrec := ih (sizeOf child) hlt child p rfl
        rw [hrec]
        cases hrc : Node.insert ops cfg child p with
        | none => rfl
        | some out =>
          cases out with
          | single nd2 => rfl
          | split left right =>
            dsimp only
            exact check_splitO_eq ops cfg oracle hval _

/-- With a valid drain order, the order-explicit ingestion loop agrees
with the set-based one. -/
theorem from_iter_auxO_eq {CF : Type} (ops : CFOps CF) (cfg : TreeConfig)
    (oracle : Node CF → List ℕ) (hval : OracleValid ops oracle)
    (pts : List Point) : ∀ root : Node CF,
    Node.from_iter_auxO ops cfg oracle root pts = Node.from_iter_aux ops cfg root pts := by
  induction pts with
  | nil => intro root; rfl
  | cons p rest ih =>
    intro root
    rw [Node.from_iter_auxO, Node.from_iter_aux, insertO_eq ops cfg oracle hval root p]
    cases Node.insert ops cfg root p with
    | none => rfl
    | some out =>
      cases out with
      | single nd => exact ih nd
      | split left right => exact ih _

/-- With a valid drain order, the order-explicit `from_iter` agrees with
the set-based one. -/
theorem from_iterO_eq {CF : Type} (ops : CFOps CF) (cfg : TreeConfig)
    (oracle : Node CF → List ℕ) (hval : OracleValid ops oracle) (pts : List Point) :
    Node.from_iterO ops cfg oracle pts = Node.from_iter ops cfg pts :=
  from_iter_auxO_eq ops cfg oracle hval pts (.mk [])

set_option maxHeartbeats 1000000 in
/-- Step 1 of the four-point run: the first point lands in an empty root. -/
theorem insert_step1 :
    Node.insert (birchOps 3) cfgB (.mk []) [1,2,3] = some (.single nB1) := by
  norm_num [Node.insert, closestIdx, nthE, birchOps, cfgB, List.enum, List.enumFrom,
    BirchCF.dist2P, BirchCF.addP, BirchCF.diam2, BirchCF.fromP, Point.subP, Point.norm2,
    Point.addP, BirchCF.zeroF, BirchCF.addCF, BirchCF.dist2F, Node.check_split,
    Node.entriesOf, NodeEntry.insert, Node.compute_feature, Node.farthest, partitionByIdx,
    farStep, pairIdx, pairDist, selPred, List.replicate_succ, List.zipWith, nB1]
  try rfl

set_option maxHeartbeats 1000000 in
/-- Step 2: the second point fails absorption (pairwise diameter 1 exceeds
the 0.5 threshold) and is appended; two entries stay below capacity. -/
theorem insert_step2 :
    Node.insert (birchOps 3) cfgB nB1 [2,2,3] = some (.single nB2) := by
  norm_num [Node.insert, closestIdx, nthE, birchOps, cfgB, List.enum, List.enumFrom,
    BirchCF.dist2P, BirchCF.addP, BirchCF.diam2, BirchCF.fromP, Point.subP, Point.norm2,
    Point.addP, BirchCF.zeroF, BirchCF.addCF, BirchCF.dist2F, Node.check_split,
    Node.entriesOf, NodeEntry.insert, Node.compute_feature, Node.farthest, partitionByIdx,
    farStep, pairIdx, pairDist, selPred, List.replicate_succ, List.zipWith, nB1, nB2]
  try rfl

set_option maxHeartbeats 1000000 in
/-- Step 3: the closest-entry fold returns `None` (the first entry is the
strict minimum, so the final step does not improve), and the point is
appended with no split check. -/
theorem insert_step3 :
    Node.insert (birchOps 3) cfgB nB2 [1,3,3] = some (.single nB3) := by
  norm_num [Node.insert, closestIdx, nthE, birchOps, cfgB, List.enum, List.enumFrom,
    BirchCF.dist2P, BirchCF.addP, BirchCF.diam2, BirchCF.fromP, Point.subP, Point.norm2,
    Point.addP, BirchCF.zeroF, BirchCF.addCF, BirchCF.dist2F, Node.check_split,
    Node.entriesOf, NodeEntry.insert, Node.compute_feature, Node.farthest, partitionByIdx,
    farStep, pairIdx, pairDist, selPred, List.replicate_succ, List.zipWith, nB2, nB3]
  try rfl

set_option maxHeartbeats 1000000 in
/-- Step 4: again the fold returns `None`; the fourth entry is appended
and the node ends above capacity with no split. -/
theorem insert_step4 :
    Node.insert (birchOps 3) cfgB nB3 [1,2,4] = some (.single tree4) := by
  norm_num [Node.insert, closestIdx, nthE, birchOps, cfgB, List.enum, List.enumFrom,
    BirchCF.dist2P, BirchCF.addP, BirchCF.diam2, BirchCF.fromP, Point.subP, Point.norm2,
    Point.addP, BirchCF.zeroF, BirchCF.addCF, BirchCF.dist2F, Node.check_split,
    Node.entriesOf, NodeEntry.insert, Node.compute_feature, Node.farthest, partitionByIdx,
    farStep, pairIdx, pairDist, selPred, List.replicate_succ, List.zipWith, nB3, tree4]
  try rfl

/-- The full four-point ingestion: the code produces the flat four-entry
root `tree4`. -/
theorem run4_eq : Node.from_iter (birchOps 3) cfgB pts4 = some tree4 := by
  rw [Node.from_iter, pts4]
  simp only [Node.from_iter_aux, insert_step1, insert_step2, insert_step3, insert_step4]

/-- Fold of `max` over a list of zeros stays zero. -/
theorem foldl_max_zero : ∀ l : List ℕ, (∀ x ∈ l, x = 0) → l.foldl max 0 = 0
  | [], _ => rfl
  | x :: xs, h => by
    have hx := h x (by simp)
    subst hx
    simpa using foldl_max_zero xs (fun y hy => h y (by simp [hy]))

/-- A node whose entries are all childless has height 1. -/
theorem height_flat {CF : Type} (entries : List (NodeEntry CF))
    (h : ∀ e ∈ entries, e.2 = none) : Node.height (.mk entries) = 1 := by
  rw [Node.height]
  have hz : ∀ x ∈ entries.attach.map (fun ee =>
      match hh : ee.1.2 with
      | none => 0
      | some c => Node.height c), x = 0 := by
    intro x hx
    rcases List.mem_map.mp hx with ⟨ee, hee, hfx⟩
    have hnone : ee.1.2 = none := h ee.1 ee.2
    rw [← hfx]
    split
    · rfl
    · rename_i c hc
      rw [hnone] at hc
      cases hc
  rw [foldl_max_zero _ hz]

/-- C1: the spec requires `Node::insert` to select the minimum-`dist2`
entry of a non-empty node (first-seen minimum on ties) and to take the
fresh-entry branch only on an empty node; the code's fold rebuilds its
accumulator with `None` on every non-improving step, so here, with two
entries whose first is strictly closest (distance 0 to the inserted
duplicate point), no entry is selected: the point is appended as a third
fresh entry even though absorption into entry 0 would have succeeded. -/
theorem c1_closest_selection_code_bug :
    BirchCF.diam2 (BirchCF.addP (BirchCF.fromP 3 [0,0,0]) [0,0,0]) ≤ cfgW.threshold ∧
    Node.insert (birchOps 3) cfgW nodeC1 [0,0,0] = some (.single nodeC1out) := by
  constructor
  · norm_num [BirchCF.diam2, BirchCF.addP, BirchCF.fromP, BirchCF.zeroF, cfgW,
      Point.addP, Point.norm2, Point.zeroP, Point.subP, List.replicate_succ, List.zipWith]
  · norm_num [Node.insert, closestIdx, nthE, birchOps, cfgW, List.enum, List.enumFrom,
      BirchCF.dist2P, BirchCF.addP, BirchCF.diam2, BirchCF.fromP, Point.subP, Point.norm2,
      Point.addP, BirchCF.zeroF, BirchCF.addCF, BirchCF.dist2F, Node.check_split,
      Node.entriesOf, NodeEntry.insert, Node.compute_feature, Node.farthest, partitionByIdx,
      farStep, pairIdx, pairDist, selPred, List.replicate_succ, List.zipWith, nodeC1, nodeC1out]
    try rfl

/-- C2: under the accepted configuration `{min 1, max 3, threshold 0.5}`
the four-point ingestion ends with a root of four entries, exceeding
`node_capacity().max = 3`: the capacity invariant P5 fails on the code
(the `None` branch of the closest-entry fold appends without a split
check). -/
theorem c2_capacity_bound_code_bug :
    Node.from_iter (birchOps 3) cfgB pts4 = some tree4 ∧
    cfgB.accepted ∧
    cfgB.capacity.max < tree4.entriesOf.length :=
  ⟨run4_eq, by decide, by decide⟩

/-- C3: the four-near-points scenario: the code yields a flat root of
height 1 with four entries (no split ever fires because the selection
fold returns `None` from the third insertion on), not the height-2
two-child root the spec describes; the total leaf size is still 4. -/
theorem c3_four_points_scenario_code_bug :
    Node.from_iter (birchOps 3) cfgB pts4 = some tree4 ∧
    tree4.height = 1 ∧
    tree4.entriesOf.length = 4 ∧
    leafSum (birchOps 3) tree4 = 4 := by
  refine ⟨run4_eq, ?_, by decide, ?_⟩
  · unfold tree4
    exact height_flat _ (by simp)
  · norm_num [leafSum, tree4, birchOps, BirchCF.sizeF]

/-- C6: `NodeEntry::insert` absorbs exactly when the grown feature's
squared diameter stays within the threshold; on success the entry keeps
its child and carries the grown feature, on failure the entry is
untouched and the failure carries exactly the candidate point. -/
theorem c6_entry_insert_absorption {CF : Type} (ops : CFOps CF) (cfg : TreeConfig)
    (e : NodeEntry CF) (p : Point) :
    ((NodeEntry.insert ops cfg e p).1 = EntryInsertion.success ↔
      ops.diam2 (ops.addP e.1 p) ≤ cfg.threshold) ∧
    NodeEntry.insert ops cfg e p =
      (if ops.diam2 (ops.addP e.1 p) ≤ cfg.threshold
       then (EntryInsertion.success, (ops.addP e.1 p, e.2))
       else (EntryInsertion.failure p, e)) := by
  unfold NodeEntry.insert
  by_cases hth : ops.diam2 (ops.addP e.1 p) ≤ cfg.threshold
  · simp [hth]
  · simp [hth]

/-- C5 counterexample: the claim says `diam2` of the empty feature is an
undefined-large value; on the code the empty (zero) feature evaluates to
`(2*0*0 - 2*0) / 1 = 0`, a perfectly defined zero. -/
theorem c5_empty_diam2_counterexample : BirchCF.diam2 (BirchCF.zeroF 3) = 0 := by
  norm_num [BirchCF.diam2, BirchCF.zeroF, Point.norm2, Point.zeroP, List.replicate_succ]

/-- C5 amended: `diam2` is the stated quotient with divisor `n*(n-1)`
for `n >= 2` and divisor `1` for `n < 2`; it is exactly 0 on every
singleton `CF::from(p)`; and on the empty feature the numerator is
`-2*norm2(ls)`, which for the zero feature gives exactly 0 (not an
undefined-large value). -/
theorem c5_diam2_amended :
    (∀ f : BirchCF, 2 ≤ f.n →
      f.diam2 = (2 * (f.n : Scalar) * f.ss - 2 * Point.norm2 f.ls) /
        ((f.n * (f.n - 1) : ℕ) : Scalar)) ∧
    (∀ f : BirchCF, f.n < 2 →
      f.diam2 = (2 * (f.n : Scalar) * f.ss - 2 * Point.norm2 f.ls) / 1) ∧
    (∀ (D : ℕ) (p : Point), p.length = D → (BirchCF.fromP D p).diam2 = 0) ∧
    (∀ f : BirchCF, f.n = 0 →
      f.diam2 = -(2 * Point.norm2 f.ls)) ∧
    (∀ D : ℕ, (BirchCF.zeroF D).diam2 = 0) := by
  refine ⟨?_, ?_, ?_, ?_, ?_⟩
  · intro f hf
    rw [BirchCF.diam2, if_neg (by omega)]
  · intro f hf
    rw [BirchCF.diam2, if_pos hf]
  · intro D p hp
    rw [BirchCF.fromP, BirchCF.addP, BirchCF.diam2]
    simp only [BirchCF.zeroF]
    rw [Point.addP_zero_left p D hp]
    norm_num
  · intro f hf
    rw [BirchCF.diam2, if_pos (by omega), hf]
    push_cast
    ring
  · intro D
    rw [BirchCF.diam2, BirchCF.zeroF]
    simp [Point.norm2_zeroP]

/-- C5 witness: the amended statement applied at concrete features. -/
theorem c5_diam2_amended_witness :
    (⟨[3], 5, 2⟩ : BirchCF).diam2 =
      (2 * ((2 : ℕ) : Scalar) * 5 - 2 * Point.norm2 [3]) / (((2 * (2 - 1) : ℕ)) : Scalar) ∧
    (BirchCF.fromP 1 [3]).diam2 = 0 ∧
    (BirchCF.zeroF 3).diam2 = 0 :=
  ⟨c5_diam2_amended.1 ⟨[3], 5, 2⟩ (by decide),
   c5_diam2_amended.2.2.1 1 [3] (by decide),
   c5_diam2_amended.2.2.2.2 3⟩

/-- C8 counterexample: for the Betula variant, adding the zero feature
to the zero feature evaluates `0.0 / 0.0` inside the mean update; the
resulting NaN-poisoned feature (modelled `none`) is not the zero feature,
so `cf + zero == cf` fails at `cf = zero`. -/
theorem c8_betula_zero_add_counterexample :
    BetulaCF.addCF (BetulaCF.zeroF 3) (BetulaCF.zeroF 3) = none ∧
    BetulaCF.addCF (BetulaCF.zeroF 3) (BetulaCF.zeroF 3) ≠ some (BetulaCF.zeroF 3) := by
  have h1 : BetulaCF.addCF (BetulaCF.zeroF 3) (BetulaCF.zeroF 3) = none := by
    rw [BetulaCF.addCF]
    norm_num [BetulaCF.zeroF]
  refine ⟨h1, ?_⟩
  rw [h1]
  simp

/-- C8 amended: for BirchCF the two identities hold for every feature
(of the matching dimension); for BetulaCF they hold for every feature of
nonzero size, while `zero + zero` divides zero by zero and produces a
NaN-poisoned (undefined) result instead of `zero`. -/
theorem c8_identity_amended :
    (∀ (D : ℕ) (f : BirchCF), f.ls.length = D →
      BirchCF.addCF f (BirchCF.zeroF D) = f ∧ BirchCF.addCF (BirchCF.zeroF D) f = f) ∧
    (∀ (D : ℕ) (g : BetulaCF), g.n ≠ 0 → g.mu.length = D → g.s.length = D →
      BetulaCF.addCF g (BetulaCF.zeroF D) = some g ∧
      BetulaCF.addCF (BetulaCF.zeroF D) g = some g) := by
  constructor
  · intro D f hf
    constructor
    · rw [BirchCF.addCF, BirchCF.zeroF]
      cases f with
      | mk ls ss n =>
        simp only at hf ⊢
        rw [Point.addP_zero_right ls D hf]
        simp
    · rw [BirchCF.addCF, BirchCF.zeroF]
      cases f with
      | mk ls ss n =>
        simp only at hf ⊢
        rw [Point.addP_zero_left ls D hf]
        simp
  · intro D g hg hmu hs
    constructor
    · rw [BetulaCF.addCF, BetulaCF.zeroF]
      simp only [add_zero, zero_div]
      rw [if_neg hg]
      rw [Point.smul_zero_left]
      have hlen1 : (Point.subP (Point.zeroP D) g.mu).length = D := by
        simp [Point.subP, Point.zeroP, hmu]
      rw [hlen1, Point.addP_zero_right g.mu D hmu]
      rw [Point.addP_zero_right g.s D hs]
      rw [Point.smul_zero_left]
      have hlen2 : (Point.subP g.mu (Point.zeroP D)).length = D := by
        simp [Point.subP, Point.zeroP, hmu]
      rw [hlen2, Point.mulP_zero_left _ D (by simp [Point.subP, Point.zeroP, hmu])]
      rw [Point.addP_zero_right g.s D hs]
    · rw [BetulaCF.addCF, BetulaCF.zeroF]
      simp only [zero_add]
      rw [if_neg hg, div_self hg]
      rw [Point.subP_zero_right g.mu D hmu, Point.smul_one_left]
      rw [Point.addP_zero_left g.mu D hmu]
      rw [Point.addP_zero_left g.s D hs]
      rw [Point.subP_self g.mu, hmu]
      rw [Point.mulP_zero_right _ D (by simp [Point.smul, Point.subP, Point.zeroP, hmu])]
      rw [Point.addP_zero_right g.s D hs]

/-- C8 witness: the amended identities at concrete features. -/
theorem c8_identity_amended_witness :
    (BirchCF.addCF ⟨[2], 3, 1⟩ (BirchCF.zeroF 1) = ⟨[2], 3, 1⟩ ∧
      BirchCF.addCF (BirchCF.zeroF 1) ⟨[2], 3, 1⟩ = ⟨[2], 3, 1⟩) ∧
    (BetulaCF.addCF ⟨2, [3], [4]⟩ (BetulaCF.zeroF 1) = some ⟨2, [3], [4]⟩ ∧
      BetulaCF.addCF (BetulaCF.zeroF 1) ⟨2, [3], [4]⟩ = some ⟨2, [3], [4]⟩) :=
  ⟨c8_identity_amended.1 1 ⟨[2], 3, 1⟩ (by decide),
   c8_identity_amended.2 1 ⟨2, [3], [4]⟩ (by decide) (by decide) (by decide)⟩

/-- C9: when a two-entry node is split, the farthest pair is the single
pair `(0, 1)` with an empty `rest`, so `lset` is empty and the
`partition_map` sends both entries right: the left node is empty and the
right node holds both original entries in order. -/
theorem c9_two_entry_split {CF : Type} (ops : CFOps CF) (cfg : TreeConfig)
    (e1 e2 : NodeEntry CF) (hmax : cfg.capacity.max ≤ 2) :
    Node.check_split ops cfg (.mk [e1, e2]) =
      some (.split (.mk []) (.mk [e1, e2])) := by
  unfold Node.check_split
  rw [if_pos (by simpa [Node.entriesOf] using hmax)]
  rfl

/-- C9 witness: the two-entry split at concrete entries with `max = 2`. -/
theorem c9_two_entry_split_witness :
    Node.check_split (birchOps 1) cfg2 (.mk [eA, eB]) =
      some (.split (.mk []) (.mk [eA, eB])) :=
  c9_two_entry_split (birchOps 1) cfg2 eA eB (by decide)

/-- The increasing drain-order oracle is valid. -/
theorem sortOracle_valid {CF : Type} (ops : CFOps CF) :
    OracleValid ops (sortOracle ops) := by
  intro nd far hf k
  unfold sortOracle
  rw [hf]
  exact Finset.mem_sort (fun a b => a ≤ b)

/-- The decreasing drain-order oracle is valid. -/
theorem revOracle_valid {CF : Type} (ops : CFOps CF) :
    OracleValid ops (revOracle ops) := by
  intro nd far hf k
  unfold revOracle
  rw [List.mem_reverse]
  exact sortOracle_valid ops nd far hf k

/-- C10: the tree built by `Node::from_iter` does not depend on the
order in which the `rest` hash set is drained during splits (the sets
are consulted only through membership): any two valid drain-order
oracles produce identical trees on the same stream and configuration. -/
theorem c10_order_independence {CF : Type} (ops : CFOps CF) (cfg : TreeConfig)
    (o1 o2 : Node CF → List ℕ) (h1 : OracleValid ops o1) (h2 : OracleValid ops o2)
    (pts : List Point) :
    Node.from_iterO ops cfg o1 pts = Node.from_iterO ops cfg o2 pts := by
  rw [from_iterO_eq ops cfg o1 h1 pts, from_iterO_eq ops cfg o2 h2 pts]

/-- C10 witness: increasing versus decreasing drain order on the
four-point stream. -/
theorem c10_order_independence_witness :
    Node.from_iterO (birchOps 3) cfgB (sortOracle (birchOps 3)) pts4 =
      Node.from_iterO (birchOps 3) cfgB (revOracle (birchOps 3)) pts4 :=
  c10_order_independence (birchOps 3) cfgB (sortOracle (birchOps 3))
    (revOracle (birchOps 3)) (sortOracle_valid (birchOps 3))
    (revOracle_valid (birchOps 3)) pts4

/-- Unfolding `leafSum` on the empty node. -/
theorem leafSum_nil {CF : Type} (ops : CFOps CF) :
    leafSum ops (.mk ([] : List (NodeEntry CF))) = 0 := by
  rw [leafSum]

/-- Unfolding `leafSum` entrywise. -/
theorem leafSum_cons {CF : Type} (ops : CFOps CF) (e : NodeEntry CF)
    (rest : List (NodeEntry CF)) :
    leafSum ops (.mk (e :: rest)) = entryLS ops e + leafSum ops (.mk rest) := by
  cases e with
  | mk f ch =>
    cases ch with
    | none => rw [leafSum, entryLS]
    | some c => rw [leafSum, entryLS]

/-- The leaf total of a node is the sum of its entries' contributions. -/
theorem leafSum_eq_sum {CF : Type} (ops : CFOps CF) :
    ∀ es : List (NodeEntry CF), leafSum ops (.mk es) = (es.map (entryLS ops)).sum
  | [] => by rw [leafSum_nil]; rfl
  | e :: rest => by
    rw [leafSum_cons, leafSum_eq_sum ops rest]
    simp

/-- Leaf totals add over concatenated entry lists. -/
theorem leafSum_append {CF : Type} (ops : CFOps CF) (es1 es2 : List (NodeEntry CF)) :
    leafSum ops (.mk (es1 ++ es2)) = leafSum ops (.mk es1) + leafSum ops (.mk es2) := by
  rw [leafSum_eq_sum, leafSum_eq_sum, leafSum_eq_sum, List.map_append, List.sum_append]

/-- Leaf total after replacing the entry at an in-range index. -/
theorem leafSum_set {CF : Type} (ops : CFOps CF) :
    ∀ (es : List (NodeEntry CF)) (i : ℕ) (e' : NodeEntry CF), i < es.length →
      leafSum ops (.mk (es.set i e')) =
        leafSum ops (.mk es) - entryLS ops (nthE ops es i) + entryLS ops e'
  | [], i, e', h => by simp at h
  | e :: rest, 0, e', _ => by
    rw [List.set_cons_zero, leafSum_cons, leafSum_cons]
    rw [nthE, List.getD_cons_zero]
    ring
  | e :: rest, i + 1, e', h => by
    rw [List.set_cons_succ, leafSum_cons, leafSum_cons]
    rw [leafSum_set ops rest i e' (by simpa using h)]
    have hn : nthE ops (e :: rest) (i + 1) = nthE ops rest i := by
      simp [nthE]
    rw [hn]
    ring

/-- Splitting a mapped sum along a boolean filter and its pointwise
complement. -/
theorem sum_map_filter_split {α : Type} (g : α → Scalar) (q q' : α → Bool)
    (hq : ∀ x, q' x = !(q x)) :
    ∀ l : List α,
      ((l.filter q).map g).sum + ((l.filter q').map g).sum = (l.map g).sum
  | [] => by simp
  | x :: xs => by
    have ih := sum_map_filter_split g q q' hq xs
    have hqx' := hq x
    cases hqx : q x with
    | true =>
      rw [hqx] at hqx'
      simp only [List.filter_cons, hqx, hqx', Bool.not_true, if_true,
        List.map_cons, List.sum_cons]
      simp only [Bool.false_eq_true, if_false]
      linarith [ih]
    | false =>
      rw [hqx] at hqx'
      simp only [List.filter_cons, hqx, hqx', Bool.not_false, if_true,
        List.map_cons, List.sum_cons]
      simp only [Bool.false_eq_true, if_false]
      linarith [ih]

/-- The two halves of `partition_map` carry exactly the original leaf
total between them. -/
theorem partition_leafSum {CF : Type} (ops : CFOps CF) (lset : Finset ℕ)
    (es : List (NodeEntry CF)) :
    leafSum ops (.mk (partitionByIdx lset es).1) +
      leafSum ops (.mk (partitionByIdx lset es).2) = leafSum ops (.mk es) := by
  unfold partitionByIdx
  rw [leafSum_eq_sum, leafSum_eq_sum, leafSum_eq_sum]
  rw [List.map_map, List.map_map]
  have hsplit := sum_map_filter_split
    (fun ke : ℕ × NodeEntry CF => entryLS ops ke.2)
    (fun ke : ℕ × NodeEntry CF => decide (ke.1 ∈ lset))
    (fun ke : ℕ × NodeEntry CF => decide (ke.1 ∉ lset))
    (fun ke => by simp)
    es.enum
  have hcomp : (es.enum.map (fun ke : ℕ × NodeEntry CF => entryLS ops ke.2)) =
      es.map (entryLS ops) := by
    have := List.enum_map_snd es
    calc es.enum.map (fun ke : ℕ × NodeEntry CF => entryLS ops ke.2)
        = (es.enum.map Prod.snd).map (entryLS ops) := by
          rw [List.map_map]
          rfl
      _ = es.map (entryLS ops) := by rw [this]
  rw [hcomp] at hsplit
  simpa [Function.comp] using hsplit

/-- A successful `check_split` conserves the leaf total: below capacity
the node is unchanged, and a split merely partitions its entries. -/
theorem check_split_leafSum {CF : Type} (ops : CFOps CF) (cfg : TreeConfig)
    (es : List (NodeEntry CF)) (out : NodeInsertion (Node CF))
    (h : Node.check_split ops cfg (.mk es) = some out) :
    insLS ops out = leafSum ops (.mk es) := by
  rw [Node.check_split] at h
  by_cases hc : cfg.capacity.max ≤ (Node.mk es).entriesOf.length
  · rw [if_pos hc] at h
    cases hf : Node.farthest ops (.mk es) with
    | none =>
      rw [hf] at h
      simp at h
    | some far =>
      rw [hf] at h
      dsimp only at h
      rcases Option.some.inj h with rfl
      rw [insLS]
      exact partition_leafSum ops _ es
  · rw [if_neg hc] at h
    rcases Option.some.inj h with rfl
    rw [insLS]

/-- Every index in an `enumFrom` lies in the expected range. -/
theorem enumFrom_fst_lt {α : Type} :
    ∀ (es : List α) (k : ℕ) (ke : ℕ × α), ke ∈ es.enumFrom k → ke.1 < k + es.length
  | [], _, _, h => by simp at h
  | e :: rest, k, ke, h => by
    rw [List.enumFrom] at h
    rcases List.mem_cons.mp h with h1 | h1
    · subst h1
      simp
    · have := enumFrom_fst_lt rest (k + 1) ke h1
      simp at this ⊢
      omega

/-- An index selected by the closest-entry fold is in range. -/
theorem closestIdx_lt {CF : Type} (ops : CFOps CF) (p : Point)
    (es : List (NodeEntry CF)) (i : ℕ)
    (h : (closestIdx ops p es).1 = some i) : i < es.length := by
  rw [closestIdx] at h
  have hgen : ∀ (l : List (ℕ × NodeEntry CF)) (acc : Option ℕ × Option Scalar),
      (∀ ke ∈ l, ke.1 < es.length) →
      (∀ j, acc.1 = some j → j < es.length) →
      ∀ j, (l.foldl (fun acc ie =>
        match acc.2 with
        | none => (some ie.1, some (ops.dist2P ie.2.1 p))
        | some dcur =>
          let d2 := ops.dist2P ie.2.1 p
          if d2 < dcur then (some ie.1, some d2) else (none, some dcur)) acc).1 =
          some j → j < es.length := by
    intro l
    induction l with
    | nil => intro acc _ hacc j hj; exact hacc j hj
    | cons ke rest ih =>
      intro acc hl hacc j hj
      rw [List.foldl_cons] at hj
      refine ih _ (fun x hx => hl x (List.mem_cons_of_mem _ hx)) ?_ j hj
      intro j' hj'
      rcases hacc2 : acc.2 with _ | dcur
      · rw [hacc2] at hj'
        have hke1 : ke.1 = j' := by simpa using hj'
        rw [← hke1]
        exact hl ke (List.mem_cons_self _ _)
      · rw [hacc2] at hj'
        dsimp at hj'
        by_cases hlt : ops.dist2P ke.2.1 p < dcur
        · rw [if_pos hlt] at hj'
          have hke1 : ke.1 = j' := by simpa using hj'
          rw [← hke1]
          exact hl ke (List.mem_cons_self _ _)
        · rw [if_neg hlt] at hj'
          simp at hj'
  refine hgen es.enum (none, none) ?_ (by intro j hj; simp at hj) i h
  intro ke hke
  have := enumFrom_fst_lt es 0 ke hke
  simpa using this

/-- A successful `Node::insert` raises the leaf total by exactly one,
provided the feature algebra counts one per point (`size(from p) = 1`,
`size(f + p) = size f + 1`). -/
theorem insert_leafSum {CF : Type} (ops : CFOps CF) (cfg : TreeConfig)
    (hfrom : ∀ p : Point, ops.sizeF (ops.fromP p) = 1)
    (haddp : ∀ (f : CF) (p : Point), ops.sizeF (ops.addP f p) = ops.sizeF f + 1)
    (nd : Node CF) (p : Point) (out : NodeInsertion (Node CF))
    (h : Node.insert ops cfg nd p = some out) :
    insLS ops out = leafSum ops nd + 1 := by
  induction' hs : sizeOf nd using Nat.strongRecOn with N ih generalizing nd p out
  cases nd with
  | mk entries =>
    rw [Node.insert] at h
    revert h
    cases hcl : (closestIdx ops p entries).1 with
    | none =>
      intro h
      dsimp only at h
      rcases Option.some.inj h with rfl
      rw [insLS, leafSum_append, leafSum_cons, leafSum_nil]
      have he : entryLS ops (ops.fromP p, none) = ops.sizeF (ops.fromP p) := by
        simp [entryLS]
      rw [he, hfrom p]
      ring
    | some i =>
      dsimp only
      have hi : i < entries.length := closestIdx_lt ops p entries i hcl
      cases hch : (nthE ops entries i).2 with
      | some child =>
        dsimp only
        have hsz : sizeOf child < N := by
          have := nthE_child_sizeOf ops entries i child hch
          subst hs
          simp
          omega
        cases hrc : Node.insert ops cfg child p with
        | none =>
          intro h
          dsimp only at h
          cases h
        | some rec =>
          cases rec with
          | single nd2 =>
            intro h
            dsimp only at h
            rcases Option.some.inj h with rfl
            rw [insLS, leafSum_set ops entries i _ hi]
            have h1 : entryLS ops (nthE ops entries i) = leafSum ops child := by
              simp [entryLS, hch]
            have h2 : entryLS ops (Node.compute_feature ops nd2, some nd2) =
                leafSum ops nd2 := by simp [entryLS]
            have h3 := ih (sizeOf child) hsz child p (.single nd2) hrc rfl
            rw [insLS] at h3
            rw [h1, h2, h3]
            ring
          | split left right =>
            intro h
            dsimp only at h
            have hcs := check_split_leafSum ops cfg _ out h
            rw [hcs, leafSum_append, leafSum_set ops entries i _ hi, leafSum_cons,
              leafSum_nil]
            have h1 : entryLS ops (nthE ops entries i) = leafSum ops child := by
              simp [entryLS, hch]
            have h2 : entryLS ops (Node.compute_feature ops left, some left) =
                leafSum ops left := by simp [entryLS]
            have h4 : entryLS ops (Node.compute_feature ops right, some right) =
                leafSum ops right := by simp [entryLS]
            have h3 := ih (sizeOf child) hsz child p (.split left right) hrc rfl
            rw [insLS] at h3
            rw [h1, h2, h4]
            linarith [h3]
      | none =>
        dsimp only
        by_cases habs : ops.diam2 (ops.addP (nthE ops entries i).1 p) ≤ cfg.threshold
        · have hni : NodeEntry.insert ops cfg (nthE ops entries i) p =
              (.success, (ops.addP (nthE ops entries i).1 p, (nthE ops entries i).2)) := by
            rw [NodeEntry.insert]
            rw [if_pos habs]
          rw [hni, hch]
          intro h
          dsimp only at h
          rcases Option.some.inj h with rfl
          rw [insLS, leafSum_set ops entries i _ hi]
          have h1 : entryLS ops (nthE ops entries i) =
              ops.sizeF (nthE ops entries i).1 := by
            simp [entryLS, hch]
          have h2 : entryLS ops (ops.addP (nthE ops entries i).1 p, none) =
              ops.sizeF (ops.addP (nthE ops entries i).1 p) := by
            simp [entryLS]
          rw [h1, h2, haddp]
          ring
        · have hni : NodeEntry.insert ops cfg (nthE ops entries i) p =
              (.failure p, nthE ops entries i) := by
            rw [NodeEntry.insert]
            rw [if_neg habs]
          rw [hni]
          intro h
          dsimp only at h
          have hcs := check_split_leafSum ops cfg _ out h
          rw [hcs, leafSum_append, leafSum_cons, leafSum_nil]
          have he : entryLS ops (ops.fromP p, none) = ops.sizeF (ops.fromP p) := by
            simp [entryLS]
          rw [he, hfrom p]
          ring

/-- The ingestion loop adds one to the leaf total per consumed point. -/
theorem from_iter_aux_leafSum {CF : Type} (ops : CFOps CF) (cfg : TreeConfig)
    (hfrom : ∀ p : Point, ops.sizeF (ops.fromP p) = 1)
    (haddp : ∀ (f : CF) (p : Point), ops.sizeF (ops.addP f p) = ops.sizeF f + 1) :
    ∀ (pts : List Point) (root out : Node CF),
      Node.from_iter_aux ops cfg root pts = some out →
      leafSum ops out = leafSum ops root + (pts.length : Scalar)
  | [], root, out, h => by
    rcases Option.some.inj h with rfl
    simp
  | p :: rest, root, out, h => by
    rw [Node.from_iter_aux] at h
    revert h
    cases hin : Node.insert ops cfg root p with
    | none => intro h; cases h
    | some res =>
      have hone := insert_leafSum ops cfg hfrom haddp root p res hin
      cases res with
      | single nd =>
        intro h
        have := from_iter_aux_leafSum ops cfg hfrom haddp rest nd out h
        rw [insLS] at hone
        rw [this, hone]
        simp only [List.length_cons]
        push_cast
        ring
      | split left right =>
        intro h
        have := from_iter_aux_leafSum ops cfg hfrom haddp rest _ out h
        rw [insLS] at hone
        rw [this]
        rw [leafSum_cons, leafSum_cons, leafSum_nil]
        have h2 : entryLS ops (Node.compute_feature ops left, some left) =
            leafSum ops left := by simp [entryLS]
        have h4 : entryLS ops (Node.compute_feature ops right, some right) =
            leafSum ops right := by simp [entryLS]
        rw [h2, h4]
        simp only [List.length_cons]
        push_cast
        linarith [hone]

/-- C7: count conservation (P3): after `Node::from_iter` completes on an
accepted configuration, the sum of `feature.size()` over all childless
entries equals the number of consumed points, for any feature algebra in
which a fresh feature counts 1 and absorption adds 1. -/
theorem c7_count_conservation {CF : Type} (ops : CFOps CF) (cfg : TreeConfig)
    (hacc : cfg.accepted)
    (hfrom : ∀ p : Point, ops.sizeF (ops.fromP p) = 1)
    (haddp : ∀ (f : CF) (p : Point), ops.sizeF (ops.addP f p) = ops.sizeF f + 1)
    (pts : List Point) (root : Node CF)
    (hrun : Node.from_iter ops cfg pts = some root) :
    leafSum ops root = (pts.length : Scalar) := by
  rw [Node.from_iter] at hrun
  have := from_iter_aux_leafSum ops cfg hfrom haddp pts _ root hrun
  rw [this, leafSum_nil]
  ring

/-- Fresh birch features count one point. -/
theorem birch_sizeF_fromP (D : ℕ) (p : Point) :
    (birchOps D).sizeF ((birchOps D).fromP p) = 1 := by
  simp [birchOps, BirchCF.sizeF, BirchCF.fromP, BirchCF.addP, BirchCF.zeroF]

/-- Absorbing a point raises the birch size by one. -/
theorem birch_sizeF_addP (D : ℕ) (f : BirchCF) (p : Point) :
    (birchOps D).sizeF ((birchOps D).addP f p) = (birchOps D).sizeF f + 1 := by
  simp [birchOps, BirchCF.sizeF, BirchCF.addP]

/-- C7 witness: count conservation on the concrete four-point run. -/
theorem c7_count_conservation_witness :
    leafSum (birchOps 3) tree4 = (pts4.length : Scalar) :=
  c7_count_conservation (birchOps 3) cfgB (by decide)
    (birch_sizeF_fromP 3) (birch_sizeF_addP 3) pts4 tree4 run4_eq

/-- Membership in a dropped range. -/
theorem mem_drop_range : ∀ (n k x : ℕ), x ∈ (List.range n).drop k ↔ k ≤ x ∧ x < n := by
  intro n
  induction n with
  | zero => intro k x; simp [List.range_zero]
  | succ m ih =>
    intro k x
    rw [List.range_succ]
    rcases le_or_lt k m with hk | hk
    · rw [List.drop_append_of_le_length (by simpa using hk)]
      rw [List.mem_append, ih k x]
      simp only [List.mem_singleton]
      constructor
      · rintro (⟨h1, h2⟩ | rfl)
        · exact ⟨h1, by omega⟩
        · exact ⟨hk, by omega⟩
      · rintro ⟨h1, h2⟩
        rcases Nat.lt_or_ge x m with hx | hx
        · exact Or.inl ⟨h1, hx⟩
        · exact Or.inr (by omega)
    · rw [List.drop_eq_nil_of_le (by simpa using hk)]
      simp
      omega

/-- The pairs scanned by `tuple_combinations` are exactly the strictly
increasing in-range index pairs. -/
theorem pairIdx_mem (n i j : ℕ) : (i, j) ∈ pairIdx n ↔ i < j ∧ j < n := by
  rw [pairIdx, List.mem_flatMap]
  constructor
  · rintro ⟨a, ha, hmem⟩
    rcases List.mem_map.mp hmem with ⟨b, hb, hab⟩
    injection hab with h1 h2
    subst h1
    subst h2
    have := (mem_drop_range n (a + 1) b).mp hb
    omega
  · rintro ⟨hij, hjn⟩
    refine ⟨i, List.mem_range.mpr (by omega), ?_⟩
    exact List.mem_map.mpr ⟨j, (mem_drop_range n (i + 1) j).mpr (by omega), rfl⟩

/-- Membership in the index set of a pair list. -/
theorem mem_idxSet : ∀ (ps : List (ℕ × ℕ)) (x : ℕ),
    x ∈ idxSet ps ↔ ∃ q ∈ ps, x = q.1 ∨ x = q.2 := by
  intro ps
  induction ps with
  | nil => intro x; simp [idxSet]
  | cons q rest ih =>
    intro x
    rw [idxSet, List.foldr_cons]
    have hrest : rest.foldr (fun q s => insert q.1 (insert q.2 s)) ∅ = idxSet rest := rfl
    rw [hrest, Finset.mem_insert, Finset.mem_insert, ih x]
    constructor
    · rintro (rfl | rfl | ⟨q', hq', hx⟩)
      · exact ⟨q, List.mem_cons_self _ _, Or.inl rfl⟩
      · exact ⟨q, List.mem_cons_self _ _, Or.inr rfl⟩
      · exact ⟨q', List.mem_cons_of_mem _ hq', hx⟩
    · rintro ⟨q', hq', hx⟩
      rcases List.mem_cons.mp hq' with rfl | hq'
      · rcases hx with rfl | rfl
        · exact Or.inl rfl
        · exact Or.inr (Or.inl rfl)
      · exact Or.inr (Or.inr ⟨q', hq', hx⟩)

/-- For `n >= 2` the pair list mentions every index below `n`. -/
theorem idxSet_pairIdx (n : ℕ) (hn : 2 ≤ n) : idxSet (pairIdx n) = Finset.range n := by
  apply Finset.ext
  intro x
  rw [mem_idxSet, Finset.mem_range]
  constructor
  · rintro ⟨q, hq, hx⟩
    cases q with
    | mk a b =>
      have := (pairIdx_mem n a b).mp hq
      rcases hx with rfl | rfl <;> omega
  · intro hx
    rcases Nat.lt_or_ge x (n - 1) with h1 | h1
    · exact ⟨(x, n - 1), (pairIdx_mem n x (n - 1)).mpr (by omega), Or.inl rfl⟩
    · exact ⟨(0, x), (pairIdx_mem n 0 x).mpr (by omega), Or.inr rfl⟩

/-- Index sets distribute over pair-list concatenation. -/
theorem idxSet_append (ps qs : List (ℕ × ℕ)) :
    idxSet (ps ++ qs) = idxSet ps ∪ idxSet qs := by
  apply Finset.ext
  intro x
  rw [Finset.mem_union, mem_idxSet, mem_idxSet, mem_idxSet]
  constructor
  · rintro ⟨q, hq, hx⟩
    rcases List.mem_append.mp hq with h | h
    · exact Or.inl ⟨q, h, hx⟩
    · exact Or.inr ⟨q, h, hx⟩
  · rintro (⟨q, hq, hx⟩ | ⟨q, hq, hx⟩)
    · exact ⟨q, List.mem_append_left _ hq, hx⟩
    · exact ⟨q, List.mem_append_right _ hq, hx⟩

/-- The first scanned pair establishes the fold invariant. -/
theorem farStep_init {CF : Type} (ops : CFOps CF) (entries : List (NodeEntry CF))
    (q : ℕ × ℕ) (t' : Farthest)
    (hstep : farStep ops entries none q = some t') :
    FarInv ops entries [q] t' := by
  rw [farStep] at hstep
  rcases Option.some.inj hstep with rfl
  refine ⟨?_, ?_, ?_, ?_, ?_⟩
  · simp
  · apply Finset.ext
    intro x
    rw [mem_idxSet]
    simp
  · rintro ⟨q', hq', hne, hx⟩
    rcases List.mem_singleton.mp hq' with rfl
    exact absurd rfl hne
  · rintro ⟨q', hq', hne, hx⟩
    rcases List.mem_singleton.mp hq' with rfl
    exact absurd rfl hne
  · exact ⟨[], [], by simp, by simp, rfl, by simp⟩

/-- One fold step preserves the `Node::farthest` invariant. -/
theorem farStep_inv {CF : Type} (ops : CFOps CF) (entries : List (NodeEntry CF))
    (seen : List (ℕ × ℕ)) (t t' : Farthest) (q : ℕ × ℕ)
    (hinv : FarInv ops entries seen t)
    (hstep : farStep ops entries (some t) q = some t') :
    FarInv ops entries (seen ++ [q]) t' := by
  obtain ⟨hA1, hA2, hBl, hBr, pre, post, hseen, hpre, heq, hpost⟩ := hinv
  rw [farStep] at hstep
  by_cases hcmp : pairDist ops entries q > t.farthest_dist2
  · rw [if_pos hcmp] at hstep
    rcases Option.some.inj hstep with rfl
    refine ⟨?_, ?_, ?_, ?_, ?_⟩
    · exact List.mem_append_right _ (List.mem_singleton.mpr rfl)
    · show insert t.lidx (insert t.ridx t.rest) ∪ {q.1, q.2} = idxSet (seen ++ [q])
      rw [idxSet_append, ← hA2]
      have hone : ∀ y, y ∈ idxSet [q] ↔ y = q.1 ∨ y = q.2 := by
        intro y
        rw [mem_idxSet]
        simp
      apply Finset.ext
      intro y
      simp only [Finset.mem_union, Finset.mem_insert, Finset.mem_singleton, hone y]
      tauto
    · rintro ⟨q', hq', hne, hx⟩
      replace hne : q' ≠ (q.1, q.2) := hne
      replace hx : q.1 = q'.1 ∨ q.1 = q'.2 := hx
      show q.1 ∈ insert t.lidx (insert t.ridx t.rest)
      rcases List.mem_append.mp hq' with hmem | hmem
      · have hx1 : q.1 ∈ idxSet seen := (mem_idxSet seen q.1).mpr ⟨q', hmem, hx⟩
        have h3 := (Finset.ext_iff.mp hA2 q.1).mpr hx1
        simp only [Finset.mem_union, Finset.mem_insert, Finset.mem_singleton] at h3
        simp only [Finset.mem_insert]
        tauto
      · rcases List.mem_singleton.mp hmem with rfl
        exact absurd rfl hne
    · rintro ⟨q', hq', hne, hx⟩
      replace hne : q' ≠ (q.1, q.2) := hne
      replace hx : q.2 = q'.1 ∨ q.2 = q'.2 := hx
      show q.2 ∈ insert t.lidx (insert t.ridx t.rest)
      rcases List.mem_append.mp hq' with hmem | hmem
      · have hx1 : q.2 ∈ idxSet seen := (mem_idxSet seen q.2).mpr ⟨q', hmem, hx⟩
        have h3 := (Finset.ext_iff.mp hA2 q.2).mpr hx1
        simp only [Finset.mem_union, Finset.mem_insert, Finset.mem_singleton] at h3
        simp only [Finset.mem_insert]
        tauto
      · rcases List.mem_singleton.mp hmem with rfl
        exact absurd rfl hne
    · refine ⟨seen, [], by simp, ?_, rfl, by simp⟩
      intro q' hq'
      dsimp only
      rw [hseen] at hq'
      rcases List.mem_append.mp hq' with hmem | hmem
      · exact lt_trans (hpre q' hmem) hcmp
      · rcases List.mem_cons.mp hmem with rfl | hmem
        · rw [heq]
          exact hcmp
        · exact lt_of_le_of_lt (hpost q' hmem) hcmp
  · rw [if_neg hcmp] at hstep
    rcases Option.some.inj hstep with rfl
    refine ⟨?_, ?_, ?_, ?_, ?_⟩
    · exact List.mem_append_left _ hA1
    · show insert q.1 (insert q.2 t.rest) ∪ {t.lidx, t.ridx} = idxSet (seen ++ [q])
      rw [idxSet_append, ← hA2]
      have hone : ∀ y, y ∈ idxSet [q] ↔ y = q.1 ∨ y = q.2 := by
        intro y
        rw [mem_idxSet]
        simp
      apply Finset.ext
      intro y
      simp only [Finset.mem_union, Finset.mem_insert, Finset.mem_singleton, hone y]
      tauto
    · rintro ⟨q', hq', hne, hx⟩
      replace hne : q' ≠ (t.lidx, t.ridx) := hne
      replace hx : t.lidx = q'.1 ∨ t.lidx = q'.2 := hx
      show t.lidx ∈ insert q.1 (insert q.2 t.rest)
      rcases List.mem_append.mp hq' with hmem | hmem
      · have hin := hBl ⟨q', hmem, hne, hx⟩
        simp only [Finset.mem_insert]
        tauto
      · rcases List.mem_singleton.mp hmem with rfl
        simp only [Finset.mem_insert]
        tauto
    · rintro ⟨q', hq', hne, hx⟩
      replace hne : q' ≠ (t.lidx, t.ridx) := hne
      replace hx : t.ridx = q'.1 ∨ t.ridx = q'.2 := hx
      show t.ridx ∈ insert q.1 (insert q.2 t.rest)
      rcases List.mem_append.mp hq' with hmem | hmem
      · have hin := hBr ⟨q', hmem, hne, hx⟩
        simp only [Finset.mem_insert]
        tauto
      · rcases List.mem_singleton.mp hmem with rfl
        simp only [Finset.mem_insert]
        tauto
    · refine ⟨pre, post ++ [q], by rw [hseen]; simp, hpre, heq, ?_⟩
      intro q' hq'
      dsimp only
      rcases List.mem_append.mp hq' with hmem | hmem
      · exact hpost q' hmem
      · rcases List.mem_singleton.mp hmem with rfl
        exact le_of_not_lt hcmp

/-- A step of the pair fold never loses the tracker. -/
theorem farStep_some {CF : Type} (ops : CFOps CF) (entries : List (NodeEntry CF))
    (t : Farthest) (q : ℕ × ℕ) :
    ∃ t2, farStep ops entries (some t) q = some t2 := by
  rw [farStep]
  by_cases hcmp : pairDist ops entries q > t.farthest_dist2
  · exact ⟨_, if_pos hcmp⟩
  · exact ⟨_, if_neg hcmp⟩

/-- Folding the remaining pairs preserves the invariant. -/
theorem farFold_inv {CF : Type} (ops : CFOps CF) (entries : List (NodeEntry CF)) :
    ∀ (ps seen : List (ℕ × ℕ)) (t : Farthest),
      FarInv ops entries seen t →
      ∀ t', ps.foldl (farStep ops entries) (some t) = some t' →
      FarInv ops entries (seen ++ ps) t'
  | [], seen, t, hinv, t', h => by
    rcases Option.some.inj h with rfl
    simpa using hinv
  | q :: ps, seen, t, hinv, t', h => by
    rw [List.foldl_cons] at h
    rcases farStep_some ops entries t q with ⟨t2, hstep⟩
    rw [hstep] at h
    have hinv2 := farStep_inv ops entries seen t t2 q hinv hstep
    have := farFold_inv ops entries ps (seen ++ [q]) t2 hinv2 t' h
    simpa [List.append_assoc] using this

/-- The farthest-pair search satisfies the fold invariant over the full
pair list. -/
theorem farthest_inv {CF : Type} (ops : CFOps CF) (entries : List (NodeEntry CF))
    (far : Farthest) (hfar : Node.farthest ops (.mk entries) = some far) :
    FarInv ops entries (pairIdx entries.length) far := by
  rw [Node.farthest] at hfar
  have hent : (Node.mk entries).entriesOf = entries := rfl
  rw [hent] at hfar
  cases hps : pairIdx entries.length with
  | nil =>
    rw [hps] at hfar
    simp at hfar
  | cons q ps =>
    rw [hps] at hfar
    rw [List.foldl_cons] at hfar
    have hi : farStep ops entries none q =
        some ⟨pairDist ops entries q, q.1, q.2, ∅⟩ := rfl
    rw [hi] at hfar
    have hinit := farStep_init ops entries q _ hi
    have := farFold_inv ops entries ps [q] _ hinit far hfar
    simpa using this

/-- For a node of at least three entries, every index (the seed pair's
included) ends up in the `rest` set of the farthest-pair search: any
index appearing in a second scanned pair is dumped into `rest`, and with
three or more entries every index appears in at least two pairs. -/
theorem rest_eq_range {CF : Type} (ops : CFOps CF) (entries : List (NodeEntry CF))
    (far : Farthest) (hfar : Node.farthest ops (.mk entries) = some far)
    (hn : 3 ≤ entries.length) :
    far.rest = Finset.range entries.length ∧
      far.lidx < far.ridx ∧ far.ridx < entries.length := by
  have hinv := farthest_inv ops entries far hfar
  obtain ⟨hA1, hA2, hBl, hBr, _⟩ := hinv
  have hlr : far.lidx < far.ridx ∧ far.ridx < entries.length :=
    (pairIdx_mem entries.length _ _).mp hA1
  have hk : ∃ k, k < entries.length ∧ k ≠ far.lidx ∧ k ≠ far.ridx := by
    by_cases h0 : 0 ≠ far.lidx ∧ 0 ≠ far.ridx
    · exact ⟨0, by omega, h0.1, h0.2⟩
    · by_cases h1 : 1 ≠ far.lidx ∧ 1 ≠ far.ridx
      · exact ⟨1, by omega, h1.1, h1.2⟩
      · rcases not_and_or.mp h0 with h | h <;> rcases not_and_or.mp h1 with h' | h' <;>
          exact ⟨2, by omega, by omega, by omega⟩
  obtain ⟨k, hkn, hkl, hkr⟩ := hk
  have hlmem : far.lidx ∈ far.rest := by
    apply hBl
    rcases Nat.lt_or_ge far.lidx k with hlt | hge
    · refine ⟨(far.lidx, k), (pairIdx_mem _ _ _).mpr ⟨hlt, hkn⟩, ?_, Or.inl rfl⟩
      intro hcon
      injection hcon with h1 h2
      exact hkr h2
    · have hlt : k < far.lidx := by omega
      refine ⟨(k, far.lidx), (pairIdx_mem _ _ _).mpr ⟨hlt, by omega⟩, ?_, Or.inr rfl⟩
      intro hcon
      injection hcon with h1 h2
      exact hkl h1
  have hrmem : far.ridx ∈ far.rest := by
    apply hBr
    rcases Nat.lt_or_ge far.ridx k with hlt | hge
    · refine ⟨(far.ridx, k), (pairIdx_mem _ _ _).mpr ⟨hlt, hkn⟩, ?_, Or.inl rfl⟩
      intro hcon
      injection hcon with h1 h2
      exact absurd h1 (by omega)
    · have hlt : k < far.ridx := by omega
      refine ⟨(k, far.ridx), (pairIdx_mem _ _ _).mpr ⟨hlt, hlr.2⟩, ?_, Or.inr rfl⟩
      intro hcon
      injection hcon with h1 h2
      exact hkl h1
  refine ⟨?_, hlr⟩
  apply Finset.ext
  intro x
  constructor
  · intro hx
    have hu : x ∈ far.rest ∪ {far.lidx, far.ridx} := Finset.mem_union_left _ hx
    rw [hA2, idxSet_pairIdx entries.length (by omega)] at hu
    exact hu
  · intro hx
    have hx2 : x ∈ idxSet (pairIdx entries.length) := by
      rw [idxSet_pairIdx entries.length (by omega)]
      exact hx
    rw [← hA2] at hx2
    rcases Finset.mem_union.mp hx2 with h | h
    · exact h
    · rcases Finset.mem_insert.mp h with rfl | h
      · exact hlmem
      · rcases Finset.mem_singleton.mp h with rfl
        exact hrmem

/-- C4 amended: when a node with at least three entries is split (and the
maximum pairwise distance is positive, with a reflexive-zero symmetric
`dist2`), the seed pair is the first pair in lexicographic scan order
attaining the maximum pairwise `dist2` (strictly-greater comparison), and
`check_split` partitions the entries, in their original order, by the
strict closer-to-`L` test applied to every index: in particular entry `L`
itself lands in the left node and `R` in the right node. (For a
two-entry node the left node is instead empty -- see the counterexample;
this is the only amendment.) -/
theorem c4_split_amended {CF : Type} (ops : CFOps CF) (cfg : TreeConfig)
    (entries : List (NodeEntry CF)) (far : Farthest)
    (hrefl : ∀ x : CF, ops.dist2F x x = 0)
    (hsymm : ∀ x y : CF, ops.dist2F x y = ops.dist2F y x)
    (hn : 3 ≤ entries.length)
    (hfire : cfg.capacity.max ≤ entries.length)
    (hfar : Node.farthest ops (.mk entries) = some far)
    (hd : 0 < far.farthest_dist2) :
    (∃ pre post, pairIdx entries.length = pre ++ (far.lidx, far.ridx) :: post ∧
      (∀ q ∈ pre, pairDist ops entries q < far.farthest_dist2) ∧
      pairDist ops entries (far.lidx, far.ridx) = far.farthest_dist2 ∧
      (∀ q ∈ pairIdx entries.length, pairDist ops entries q ≤ far.farthest_dist2)) ∧
    Node.check_split ops cfg (.mk entries) = some (.split
      (.mk ((entries.enum.filter (fun ke =>
        selPred ops entries far.lidx far.ridx ke.1)).map (fun ke => ke.2)))
      (.mk ((entries.enum.filter (fun ke =>
        ¬ selPred ops entries far.lidx far.ridx ke.1)).map (fun ke => ke.2)))) ∧
    selPred ops entries far.lidx far.ridx far.lidx ∧
    ¬ selPred ops entries far.lidx far.ridx far.ridx := by
  have hinv := farthest_inv ops entries far hfar
  obtain ⟨hA1, hA2, hBl, hBr, pre, post, hseen, hpre, heq, hpost⟩ := hinv
  obtain ⟨hrest, hlr⟩ := rest_eq_range ops entries far hfar hn
  have heqd : ops.dist2F (nthE ops entries far.lidx).1 (nthE ops entries far.ridx).1 =
      far.farthest_dist2 := heq
  have hsl : selPred ops entries far.lidx far.ridx far.lidx := by
    show ops.dist2F (nthE ops entries far.lidx).1 (nthE ops entries far.lidx).1 <
      ops.dist2F (nthE ops entries far.ridx).1 (nthE ops entries far.lidx).1
    rw [hrefl, hsymm, heqd]
    exact hd
  have hsr : ¬ selPred ops entries far.lidx far.ridx far.ridx := by
    show ¬ (ops.dist2F (nthE ops entries far.lidx).1 (nthE ops entries far.ridx).1 <
      ops.dist2F (nthE ops entries far.ridx).1 (nthE ops entries far.ridx).1)
    rw [hrefl, heqd]
    intro hcon
    linarith
  refine ⟨⟨pre, post, hseen, hpre, heq, ?_⟩, ?_, hsl, hsr⟩
  · intro q hq
    rw [hseen] at hq
    rcases List.mem_append.mp hq with hmem | hmem
    · exact le_of_lt (hpre q hmem)
    · rcases List.mem_cons.mp hmem with rfl | hmem
      · exact le_of_eq heq
      · exact hpost q hmem
  · rw [Node.check_split]
    have hent : (Node.mk entries).entriesOf = entries := rfl
    rw [hent, if_pos hfire, hfar]
    dsimp only
    have hL : entries.enum.filter (fun ke =>
        ke.1 ∈ far.rest.filter (fun k => selPred ops entries far.lidx far.ridx k)) =
        entries.enum.filter (fun ke => selPred ops entries far.lidx far.ridx ke.1) := by
      refine List.filter_congr ?_
      intro ke hke
      have hkn : ke.1 < entries.length := by
        have := enumFrom_fst_lt entries 0 ke (by simpa [List.enum] using hke)
        simpa using this
      simp only [decide_eq_decide]
      rw [Finset.mem_filter, hrest, Finset.mem_range]
      constructor
      · rintro ⟨_, hp⟩
        exact hp
      · intro hp
        exact ⟨hkn, hp⟩
    have hR : entries.enum.filter (fun ke =>
        ke.1 ∉ far.rest.filter (fun k => selPred ops entries far.lidx far.ridx k)) =
        entries.enum.filter (fun ke => ¬ selPred ops entries far.lidx far.ridx ke.1) := by
      refine List.filter_congr ?_
      intro ke hke
      have hkn : ke.1 < entries.length := by
        have := enumFrom_fst_lt entries 0 ke (by simpa [List.enum] using hke)
        simpa using this
      simp only [decide_eq_decide]
      rw [Finset.mem_filter, hrest, Finset.mem_range]
      constructor
      · intro hnot hp
        exact hnot ⟨hkn, hp⟩
      · rintro hnp ⟨_, hp⟩
        exact hnp hp
    rw [partitionByIdx, hL, hR]

/-- Norm2 as a sum of squares. -/
theorem norm2_eq_sumsq : ∀ (l : Point) (c : Scalar),
    List.foldl (fun acc x => acc + x * x) c l = c + (l.map (fun x => x * x)).sum
  | [], c => by simp
  | x :: xs, c => by
    rw [List.foldl_cons, norm2_eq_sumsq xs (c + x * x)]
    simp
    ring

/-- Squared distances on `ls` vectors are symmetric. -/
theorem birch_dist2F_symm (a b : BirchCF) :
    BirchCF.dist2F a b = BirchCF.dist2F b a := by
  rw [BirchCF.dist2F, BirchCF.dist2F, Point.norm2, Point.norm2]
  rw [norm2_eq_sumsq, norm2_eq_sumsq]
  have hmap : ∀ (u v : Point),
      (List.zipWith (fun x y => x - y) u v).map (fun x => x * x) =
      (List.zipWith (fun x y => x - y) v u).map (fun x => x * x) := by
    intro u
    induction u with
    | nil => intro v; cases v <;> rfl
    | cons x xs ih =>
      intro v
      cases v with
      | nil => rfl
      | cons y ys =>
        simp only [List.zipWith_cons_cons, List.map_cons, ih ys]
        congr 1
        ring
  rw [Point.subP, Point.subP, hmap]

/-- Squared distance of a feature to itself is zero. -/
theorem birch_dist2F_self (f : BirchCF) : BirchCF.dist2F f f = 0 := by
  rw [BirchCF.dist2F, Point.subP_self, Point.norm2_zeroP]

/-- C4 counterexample: splitting a two-entry node. The farthest-pair
search seeds `(L, R) = (0, 1)` with an empty `rest`, yet `check_split`
puts BOTH entries -- the seed entry `L` included -- into the right node
and leaves the left node empty, contradicting the claim that `L` always
ends up in the left node. -/
theorem c4_seed_left_counterexample :
    Node.farthest (birchOps 1) (.mk [eA, eB]) = some ⟨100, 0, 1, ∅⟩ ∧
    Node.check_split (birchOps 1) cfg2 (.mk [eA, eB]) =
      some (.split (.mk []) (.mk [eA, eB])) := by
  constructor
  · norm_num [Node.farthest, Node.entriesOf, pairIdx, farStep, pairDist, nthE, birchOps,
      BirchCF.dist2F, BirchCF.zeroF, Point.subP, Point.norm2, Point.zeroP, eA, eB,
      List.range_succ, List.replicate_succ, List.zipWith]
  · norm_num [Node.check_split, Node.farthest, Node.entriesOf, pairIdx, farStep, pairDist,
      nthE, birchOps, BirchCF.dist2F, BirchCF.zeroF, Point.subP, Point.norm2, Point.zeroP,
      eA, eB, cfg2, partitionByIdx, selPred, List.enum, List.enumFrom,
      List.range_succ, List.replicate_succ, List.zipWith]

/-- The farthest-pair search on the concrete three-entry node: the seed
pair is `(0, 1)` at squared distance 100, and every index lands in
`rest`. -/
theorem farthest_eABC :
    Node.farthest (birchOps 1) (.mk [eA, eB, eC]) = some ⟨100, 0, 1, {0, 1, 2}⟩ := by
  norm_num [Node.farthest, Node.entriesOf, pairIdx, farStep, pairDist, nthE, birchOps,
    BirchCF.dist2F, BirchCF.zeroF, Point.subP, Point.norm2, Point.zeroP, eA, eB, eC,
    List.range_succ, List.replicate_succ, List.zipWith]
  decide

/-- C4 witness: the amended split behaviour at a concrete three-entry
node with seed pair `(0, 1)`. -/
theorem c4_split_amended_witness :
    Node.check_split (birchOps 1) cfgB (.mk [eA, eB, eC]) = some (.split
      (.mk (([eA, eB, eC].enum.filter (fun ke =>
        selPred (birchOps 1) [eA, eB, eC] 0 1 ke.1)).map (fun ke => ke.2)))
      (.mk (([eA, eB, eC].enum.filter (fun ke =>
        ¬ selPred (birchOps 1) [eA, eB, eC] 0 1 ke.1)).map (fun ke => ke.2)))) ∧
    selPred (birchOps 1) [eA, eB, eC] 0 1 0 ∧
    ¬ selPred (birchOps 1) [eA, eB, eC] 0 1 1 :=
  have h := c4_split_amended (birchOps 1) cfgB [eA, eB, eC] ⟨100, 0, 1, {0, 1, 2}⟩
    (fun x => birch_dist2F_self x) (fun x y => birch_dist2F_symm x y)
    (by decide) (by decide) farthest_eABC (by norm_num)
  ⟨h.2.1, h.2.2.1, h.2.2.2⟩
